import Mathlib

/-!
Verification of the data structures in `bloom_filter_passwords.py` and
`compare_methods.py`: a Bloom filter over strings, a password-uniqueness
workflow built on it, and a HyperLogLog cardinality estimator.

The embedding is shallow: Python objects become Lean structures, methods
become pure functions, and the mutable state (`bit_array`, `buckets`) is
threaded explicitly.  The external hash libraries (`mmh3.hash`,
`hashlib.md5`) are not part of the repository; they are modelled as
function parameters (`mmh3.hash` as an arbitrary `String → ℕ → ℤ`, since
it returns a signed 32-bit value; the md5 hexdigest as an arbitrary
`String → String` whose output is a 32-character hex string).  All theorems
hold for every instantiation of those parameters, hence for the real
libraries.  Python `%` on `int` agrees with `Int.emod` whenever the divisor
is positive, which every theorem that touches `%` assumes (`0 < size`);
Python raises `ZeroDivisionError` on `% 0`, so no claim is made there.
Python float arithmetic in `count()` is modelled as exact rational
arithmetic; the claims settled below are far coarser than the IEEE-754
double rounding error.
-/

namespace BloomSpec

/-! ## Definitions: `BloomFilter` (`bloom_filter_passwords.py`, lines 4–39) -/

/-- State of `BloomFilter` (`bloom_filter_passwords.py`, lines 4–14):
fields `size`, `num_hashes` and the bit array (a `bitarray(size)`,
modelled as a `List Bool`). -/
structure BloomFilter where
  size : ℕ
  num_hashes : ℕ
  bit_array : List Bool
deriving Repr, DecidableEq

/-- `BloomFilter.__init__(size, num_hashes)`: stores the parameters and
creates an all-zero bit array of length `size`.  The Python constructor
performs no validation and contains no `raise`; `bitarray(size)` and
`setall(0)` succeed for every `size ≥ 0`, so the embedding is a total
function. -/
def BloomFilter.init (size num_hashes : ℕ) : BloomFilter :=
  { size := size, num_hashes := num_hashes,
    bit_array := List.replicate size false }

/-- `BloomFilter._hashes(item)`: yields `mmh3.hash(item, i) % self.size`
for `i in range(self.num_hashes)`.  `h` stands for `mmh3.hash`; Python's
`%` on a positive divisor is `Int.emod`. -/
def BloomFilter.hashes (h : String → ℕ → ℤ) (bf : BloomFilter)
    (item : String) : List ℤ :=
  (List.range bf.num_hashes).map (fun i => h item i % (bf.size : ℤ))

/-- `BloomFilter.add(item)`: sets `bit_array[hash_value] = 1` for every
generated hash value. -/
def BloomFilter.add (h : String → ℕ → ℤ) (bf : BloomFilter)
    (item : String) : BloomFilter :=
  { bf with
    bit_array := (bf.hashes h item).foldl
      (fun arr hv => arr.set hv.toNat true) bf.bit_array }

/-- `BloomFilter.check(item)`: `all(self.bit_array[hash_value] ...)`. -/
def BloomFilter.check (h : String → ℕ → ℤ) (bf : BloomFilter)
    (item : String) : Bool :=
  (bf.hashes h item).all (fun hv => bf.bit_array.getD hv.toNat false)

/-- A sequence of `add` calls (`check` calls are pure and do not change the
state, so a mixed add/check history reduces to its adds). -/
def BloomFilter.addAll (h : String → ℕ → ℤ) (bf : BloomFilter)
    (items : List String) : BloomFilter :=
  items.foldl (fun acc it => acc.add h it) bf

/-! ## Definitions: `HyperLogLog` (`compare_methods.py`, lines 109–152) -/

/-- Python `w.bit_length()`: number of binary digits of `w`, and `0` for
`w = 0`. -/
def bit_length : ℕ → ℕ
  | 0 => 0
  | n + 1 => bit_length ((n + 1) / 2) + 1
decreasing_by exact Nat.div_lt_self (Nat.succ_pos n) (by omega)

/-- The binary digit string of `w` (most significant digit first) as printed
by Python's `bin`, without the `0b` prefix; empty for `w = 0` (where `bin`
prints the single digit `0`, handled in `pyBinStripped`). -/
def binDigits : ℕ → List Bool
  | 0 => []
  | n + 1 => binDigits ((n + 1) / 2) ++ [decide ((n + 1) % 2 = 1)]
decreasing_by exact Nat.div_lt_self (Nat.succ_pos n) (by omega)

/-- `bin(w).lstrip('-0b')`: the textual form of `w` in binary (`'0b…'`, a
single digit `0` when `w = 0`) with every leading character in
`{'-', '0', 'b'}` removed.  After the `0b` prefix the only strippable
digit character is `'0'`, so on the digit list this is `dropWhile (not ·)`. -/
def pyBinStripped (w : ℕ) : List Bool :=
  (if w = 0 then [false] else binDigits w).dropWhile (fun b => !b)

/-- `HyperLogLog._rho(w)` (lines 137–143):
`(w.bit_length() - len(bin(w).lstrip('-0b'))) + 1`, over Python's
arbitrary-precision signed integers. -/
def pyRho (w : ℕ) : ℤ :=
  ((bit_length w : ℤ) - ((pyBinStripped w).length : ℤ)) + 1

/-- State of `HyperLogLog` (lines 109–117): `b`, `m = 1 << b`, and the
bucket list. -/
structure HyperLogLog where
  b : ℕ
  m : ℕ
  buckets : List ℤ
deriving Repr, DecidableEq

/-- `HyperLogLog.__init__(b)`: `m = 1 << b`, `buckets = [0] * m`.  No
validation, no `raise`: the constructor succeeds for every `b ≥ 0`. -/
def HyperLogLog.init (b : ℕ) : HyperLogLog :=
  { b := b, m := 1 <<< b, buckets := List.replicate (1 <<< b) 0 }

/-- `HyperLogLog.add(value)` (lines 127–135): `x = self._hash(value)`,
`j = x & (self.m - 1)`, `w = x >> self.b`,
`buckets[j] = max(buckets[j], self._rho(w))`.  `hash` stands for
`_hash`, i.e. `int(hashlib.md5(value.encode()).hexdigest(), 16)`, a
non-negative integer. -/
def HyperLogLog.add (hash : String → ℕ) (st : HyperLogLog)
    (value : String) : HyperLogLog :=
  let x := hash value
  let j := x &&& (st.m - 1)
  let w := x >>> st.b
  { st with buckets := st.buckets.set j (max (st.buckets.getD j 0) (pyRho w)) }

def HyperLogLog.addAll (hash : String → ℕ) (st : HyperLogLog)
    (values : List String) : HyperLogLog :=
  values.foldl (fun acc v => acc.add hash v) st

/-- `Z = sum(2 ** -bucket for bucket in self.buckets)` (line 150).
Python evaluates this in IEEE-754 doubles; the embedding uses exact
rational arithmetic (the dyadic summands are exact, and the claims settled
below are far coarser than the double rounding error). -/
def HyperLogLog.Z (st : HyperLogLog) : ℚ :=
  (st.buckets.map (fun r => (2 : ℚ) ^ (-r))).sum

/-- `HyperLogLog.count()` (lines 145–152):
`E = (0.7213 / (1 + 1.079 / self.m)) * (self.m ** 2) / Z`, returned
unconditionally — the method applies no small- or large-range
correction. -/
def HyperLogLog.count (st : HyperLogLog) : ℚ :=
  (0.7213 / (1 + 1.079 / (st.m : ℚ))) * ((st.m : ℚ) ^ 2) / st.Z

/-- Following the spec's words (not the code, which has no such notion):
`V`, the number of zero-valued buckets. -/
def HyperLogLog.numZeroBuckets (st : HyperLogLog) : ℕ :=
  (st.buckets.filter (fun r => decide (r = 0))).length

/-- Following the spec's words (not the code): the linear-counting estimate
`m2 * ln(m2 / V)` that the spec mandates when `E ≤ 2.5 * m2` and `V ≠ 0`. -/
noncomputable def specLinearCounting (st : HyperLogLog) : ℝ :=
  (st.m : ℝ) * Real.log ((st.m : ℝ) / (st.numZeroBuckets : ℝ))

/-! ## Definitions: the md5 hexdigest-to-int conversion in
`HyperLogLog._hash` (lines 119–125) -/

/-- Value of a hexadecimal digit character as accepted by Python's
`int(s, 16)`: `'0'`–`'9'` (codes 48–57), `'a'`–`'f'` (97–102),
`'A'`–`'F'` (65–70); an md5 hexdigest only ever contains `0-9a-f`. -/
def hexDigitVal (c : Char) : Option ℕ :=
  if 48 ≤ c.toNat ∧ c.toNat ≤ 57 then some (c.toNat - 48)
  else if 97 ≤ c.toNat ∧ c.toNat ≤ 102 then some (c.toNat - 87)
  else if 65 ≤ c.toNat ∧ c.toNat ≤ 70 then some (c.toNat - 55)
  else none

/-- One step of base-16 accumulation; `none` once an invalid character is
seen (Python's `int(s, 16)` raises `ValueError` there). -/
def hexFoldFn (acc : Option ℕ) (c : Char) : Option ℕ :=
  match acc, hexDigitVal c with
  | some a, some v => some (16 * a + v)
  | _, _ => none

/-- Python `int(s, 16)` on plain hex-digit strings: `none` (a raise) on the
empty string or on any non-hex character, otherwise the base-16 value. -/
def int16 (s : String) : Option ℕ :=
  if s.data.isEmpty then none else s.data.foldl hexFoldFn (some 0)

/-- `HyperLogLog._hash(value)` (lines 119–125):
`int(hashlib.md5(value.encode('utf8')).hexdigest(), 16)`, with the md5
hexdigest modelled as the parameter `digest` (a 32-character hex string
for every input, including the empty string). -/
def hll_hash (digest : String → String) (value : String) : Option ℕ :=
  int16 (digest value)

/-! ## Definitions: `check_password_uniqueness`
(`bloom_filter_passwords.py`, lines 41–60) -/

/-- An element of the Python input list: either an actual `str` or any
non-string value (only its string-ness matters to the code). -/
inductive PwInput where
  | str (s : String)
  | nonString
deriving Repr, DecidableEq

/-- The loop's validity test: `isinstance(password, str) and password`
(non-strings and the empty string are invalid). -/
def isValidPassword : PwInput → Bool
  | .str s => !s.isEmpty
  | .nonString => false

/-- One iteration of the loop in `check_password_uniqueness`.  The state is
the filter together with the ordered list of `results[password] = status`
assignments made so far; the Python dict is the last-write-wins view of
that list.  Invalid input → status `"Некоректний пароль"` and `continue`
(no `check`/`add`); otherwise `check` decides between
`"вже використаний"` and `"унікальний"`, and `add` runs only in the
latter branch. -/
def pwStep (h : String → ℕ → ℤ) (st : BloomFilter × List (PwInput × String))
    (password : PwInput) : BloomFilter × List (PwInput × String) :=
  match password with
  | .nonString => (st.1, st.2 ++ [(password, "Некоректний пароль")])
  | .str s =>
    if s.isEmpty then (st.1, st.2 ++ [(password, "Некоректний пароль")])
    else if st.1.check h s then
      (st.1, st.2 ++ [(password, "вже використаний")])
    else
      (st.1.add h s, st.2 ++ [(password, "унікальний")])

/-- `check_password_uniqueness(bloom_filter, passwords)`: fold the loop
body over the input list, starting from the given filter and an empty
`results`. -/
def check_password_uniqueness (h : String → ℕ → ℤ) (bloom_filter : BloomFilter)
    (passwords : List PwInput) : BloomFilter × List (PwInput × String) :=
  passwords.foldl (pwStep h) (bloom_filter, ([] : List (PwInput × String)))

/-! ## Definitions: concrete hash instantiations used in witnesses.
Any deterministic function works (the theorems are parametric in the hash);
these are simple stand-ins, with `hTest` taking negative values the way
`mmh3.hash` can. -/

def hTest (s : String) (i : ℕ) : ℤ := (s.length : ℤ) * 7 + i - 3

def gTest (s : String) : ℕ := s.length * 13 + 7

/-! ## Bloom filter lemmas -/

section BloomLemmas

variable (h : String → ℕ → ℤ)

theorem BloomFilter.add_size (bf : BloomFilter) (s : String) :
    (bf.add h s).size = bf.size := rfl

theorem BloomFilter.add_num_hashes (bf : BloomFilter) (s : String) :
    (bf.add h s).num_hashes = bf.num_hashes := rfl

theorem BloomFilter.addAll_size (bf : BloomFilter) (l : List String) :
    (bf.addAll h l).size = bf.size := by
  induction l generalizing bf with
  | nil => rfl
  | cons x xs ih => simpa [BloomFilter.addAll] using ih (bf.add h x)

theorem BloomFilter.addAll_num_hashes (bf : BloomFilter) (l : List String) :
    (bf.addAll h l).num_hashes = bf.num_hashes := by
  induction l generalizing bf with
  | nil => rfl
  | cons x xs ih => simpa [BloomFilter.addAll] using ih (bf.add h x)

/-- The probe positions depend only on `size` and `num_hashes`. -/
theorem BloomFilter.hashes_eq_of (bf bf' : BloomFilter) (s : String)
    (hsz : bf'.size = bf.size) (hnum : bf'.num_hashes = bf.num_hashes) :
    bf'.hashes h s = bf.hashes h s := by
  simp [BloomFilter.hashes, hsz, hnum]

/-- A bit set to `true` survives `List.set _ _ true`. -/
theorem getD_set_true_of_getD_true (arr : List Bool) (i n : ℕ)
    (hn : arr.getD n false = true) :
    (arr.set i true).getD n false = true := by
  rcases eq_or_ne i n with rfl | hne
  · by_cases hlt : i < arr.length
    · simp [List.getD, List.getElem?_set_self hlt]
    · rw [List.set_eq_of_length_le (Nat.le_of_not_lt hlt)]
      exact hn
  · simpa [List.getD, List.getElem?_set_ne hne] using hn

/-- Folding bit-sets over any list preserves every `true` bit. -/
theorem getD_foldl_set_true_of_getD_true (l : List ℤ) (arr : List Bool)
    (n : ℕ) (hn : arr.getD n false = true) :
    (l.foldl (fun a hv => a.set hv.toNat true) arr).getD n false = true := by
  induction l generalizing arr with
  | nil => exact hn
  | cons x xs ih =>
    exact ih (arr.set x.toNat true) (getD_set_true_of_getD_true arr x.toNat n hn)

/-- Setting an in-bounds bit makes it read back `true`. -/
theorem getD_set_true (arr : List Bool) (i : ℕ) (hlt : i < arr.length) :
    (arr.set i true).getD i false = true := by
  induction arr generalizing i with
  | nil => simp at hlt
  | cons a l ih =>
    cases i with
    | zero => rfl
    | succ n => exact ih n (by simpa using hlt)

/-- After the fold, every in-bounds position of the list is `true`. -/
theorem getD_foldl_set_true_mem (l : List ℤ) (arr : List Bool) (p : ℤ)
    (hp : p ∈ l) (hlt : p.toNat < arr.length) :
    (l.foldl (fun a hv => a.set hv.toNat true) arr).getD p.toNat false = true := by
  induction l generalizing arr with
  | nil => cases hp
  | cons x xs ih =>
    rcases List.mem_cons.mp hp with rfl | hmem
    · rw [List.foldl_cons]
      exact getD_foldl_set_true_of_getD_true xs (arr.set p.toNat true) p.toNat
        (getD_set_true arr p.toNat hlt)
    · exact ih (arr.set x.toNat true) hmem (by simpa using hlt)

theorem foldl_set_length (l : List ℤ) (arr : List Bool) :
    (l.foldl (fun a hv => a.set hv.toNat true) arr).length = arr.length := by
  induction l generalizing arr with
  | nil => rfl
  | cons x xs ih => simpa using ih (arr.set x.toNat true)

theorem BloomFilter.add_length (bf : BloomFilter) (s : String) :
    (bf.add h s).bit_array.length = bf.bit_array.length := by
  simp only [BloomFilter.add]
  exact foldl_set_length _ _

theorem BloomFilter.addAll_length (bf : BloomFilter) (l : List String) :
    (bf.addAll h l).bit_array.length = bf.bit_array.length := by
  induction l generalizing bf with
  | nil => rfl
  | cons x xs ih =>
    simpa [BloomFilter.addAll, BloomFilter.add_length]
      using ih (bf.add h x)

/-- Every probe position is in `[0, size)` when `size > 0`. -/
theorem BloomFilter.hashes_bounds (bf : BloomFilter) (s : String)
    (hsz : 0 < bf.size) (p : ℤ) (hp : p ∈ bf.hashes h s) :
    0 ≤ p ∧ p < (bf.size : ℤ) := by
  rcases List.mem_map.mp hp with ⟨i, _, rfl⟩
  have hpos : (0 : ℤ) < (bf.size : ℤ) := by exact_mod_cast hsz
  exact ⟨Int.emod_nonneg _ (ne_of_gt hpos), Int.emod_lt_of_pos _ hpos⟩

/-- Monotonicity of single `add`: a set bit stays set. -/
theorem BloomFilter.add_mono (bf : BloomFilter) (s : String) (n : ℕ)
    (hn : bf.bit_array.getD n false = true) :
    (bf.add h s).bit_array.getD n false = true := by
  simp only [BloomFilter.add]
  exact getD_foldl_set_true_of_getD_true _ _ _ hn

theorem BloomFilter.addAll_mono (bf : BloomFilter) (l : List String) (n : ℕ)
    (hn : bf.bit_array.getD n false = true) :
    (bf.addAll h l).bit_array.getD n false = true := by
  induction l generalizing bf with
  | nil => exact hn
  | cons x xs ih =>
    exact ih (bf.add h x) (BloomFilter.add_mono h bf x n hn)

/-- After `add s`, every probe position of `s` holds a set bit. -/
theorem BloomFilter.add_sets_probes (bf : BloomFilter) (s : String)
    (hsz : 0 < bf.size) (hlen : bf.bit_array.length = bf.size)
    (p : ℤ) (hp : p ∈ bf.hashes h s) :
    (bf.add h s).bit_array.getD p.toNat false = true := by
  simp only [BloomFilter.add]
  apply getD_foldl_set_true_mem _ _ _ hp
  rw [hlen]
  have hb := BloomFilter.hashes_bounds h bf s hsz p hp
  omega

/-- Setting a bit that already reads `true` is a no-op. -/
theorem set_true_eq_self : ∀ (arr : List Bool) (n : ℕ),
    arr.getD n false = true → arr.set n true = arr
  | [], n, hn => by simp [List.getD] at hn
  | a :: l, 0, hn => by
    have ha : a = true := by simpa [List.getD] using hn
    simp [ha]
  | a :: l, n + 1, hn => by
    have := set_true_eq_self l n (by simpa [List.getD] using hn)
    simp [List.set, this]

theorem foldl_set_fix (l : List ℤ) (arr : List Bool)
    (hfix : ∀ p ∈ l, arr.set p.toNat true = arr) :
    l.foldl (fun a hv => a.set hv.toNat true) arr = arr := by
  induction l with
  | nil => rfl
  | cons x xs ih =>
    rw [List.foldl_cons, hfix x (List.mem_cons_self x xs)]
    exact ih (fun p hp => hfix p (List.mem_cons_of_mem x hp))

/-- Running the same bit-setting fold twice is the same as running it
once. -/
theorem foldl_set_idem (l : List ℤ) (arr : List Bool) :
    l.foldl (fun a hv => a.set hv.toNat true)
      (l.foldl (fun a hv => a.set hv.toNat true) arr) =
    l.foldl (fun a hv => a.set hv.toNat true) arr := by
  apply foldl_set_fix
  intro p hp
  by_cases hlt : p.toNat < arr.length
  · exact set_true_eq_self _ _ (getD_foldl_set_true_mem l arr p hp hlt)
  · have hlen2 := foldl_set_length l arr
    exact List.set_eq_of_length_le (by omega)

theorem BloomFilter.add_idem (bf : BloomFilter) (s : String) :
    (bf.add h s).add h s = bf.add h s := by
  cases bf with
  | mk size num arr =>
    simp only [BloomFilter.add, BloomFilter.hashes]
    congr 1
    exact foldl_set_idem _ _

end BloomLemmas

/-! ## HyperLogLog lemmas -/

section HllLemmas

theorem binDigits_length (n : ℕ) : (binDigits n).length = bit_length n := by
  induction n using Nat.strong_induction_on with
  | _ n ih =>
    match n with
    | 0 => simp [binDigits, bit_length]
    | m + 1 =>
      rw [binDigits, bit_length]
      simp [ih ((m + 1) / 2) (Nat.div_lt_self (Nat.succ_pos m) (by omega))]

/-- A positive number's binary digit string starts with `1`. -/
theorem binDigits_head_true (n : ℕ) (hn : 0 < n) :
    ∃ t, binDigits n = true :: t := by
  induction n using Nat.strong_induction_on with
  | _ n ih =>
    match n with
    | 0 => omega
    | m + 1 =>
      rw [binDigits]
      by_cases hq : (m + 1) / 2 = 0
      · have hm : m = 0 := by omega
        subst hm
        exact ⟨[], by simp [hq, binDigits]⟩
      · obtain ⟨t, ht⟩ := ih ((m + 1) / 2)
          (Nat.div_lt_self (Nat.succ_pos m) (by omega)) (Nat.pos_of_ne_zero hq)
        exact ⟨t ++ [decide ((m + 1) % 2 = 1)], by rw [ht]; rfl⟩

/-- The stripped digit string has exactly `bit_length w` characters: for
`w > 0` the leading digit is `1`, so nothing is stripped; for `w = 0` the
single `0` digit is stripped and both sides are `0`. -/
theorem pyBinStripped_length (w : ℕ) :
    (pyBinStripped w).length = bit_length w := by
  rcases Nat.eq_zero_or_pos w with rfl | hw
  · simp [pyBinStripped, bit_length]
  · obtain ⟨t, ht⟩ := binDigits_head_true w hw
    have : pyBinStripped w = true :: t := by
      simp [pyBinStripped, Nat.pos_iff_ne_zero.mp hw, ht, List.dropWhile]
    rw [this]
    have := binDigits_length w
    rw [ht] at this
    simpa using this

theorem pyRho_eq_one (w : ℕ) : pyRho w = 1 := by
  unfold pyRho
  rw [pyBinStripped_length]
  omega

theorem hll_Z_init (b : ℕ) : (HyperLogLog.init b).Z = (2 : ℚ) ^ b := by
  simp only [HyperLogLog.Z, HyperLogLog.init, List.map_replicate,
    List.sum_replicate, neg_zero, zpow_zero, smul_eq_mul, mul_one,
    Nat.shiftLeft_eq, one_mul]
  ring

theorem hll_m_init (b : ℕ) : (HyperLogLog.init b).m = 2 ^ b := by
  simp [HyperLogLog.init, Nat.shiftLeft_eq]

theorem hll_count_init (b : ℕ) :
    (HyperLogLog.init b).count =
      0.7213 / (1 + 1.079 / (2 : ℚ) ^ b) * (2 : ℚ) ^ b := by
  have hx : ((2 : ℚ) ^ b) ≠ 0 := pow_ne_zero _ two_ne_zero
  rw [HyperLogLog.count, hll_Z_init b]
  have hm : (((HyperLogLog.init b).m : ℚ)) = (2 : ℚ) ^ b := by
    rw [hll_m_init b]; push_cast; ring
  rw [hm]
  field_simp
  ring

theorem numZero_init4 : (HyperLogLog.init 4).numZeroBuckets = 16 := by decide

theorem specLC_init4 : specLinearCounting (HyperLogLog.init 4) = 0 := by
  have hm : ((HyperLogLog.init 4).m : ℝ) = 16 := by
    rw [hll_m_init 4]; norm_num
  rw [specLinearCounting, numZero_init4, hm]
  norm_num

/-- An updated bucket never reads below its old value. -/
theorem getD_set_max_le (l : List ℤ) (i n : ℕ) (r : ℤ) :
    l.getD n 0 ≤ (l.set i (max (l.getD i 0) r)).getD n 0 := by
  rcases eq_or_ne i n with rfl | hne
  · by_cases hlt : i < l.length
    · have hset : (l.set i (max (l.getD i 0) r)).getD i 0
          = max (l.getD i 0) r := by
        simp only [List.getD, List.get?_eq_getElem?]
        rw [List.getElem?_set_self hlt]
        rfl
      rw [hset]
      exact le_max_left _ _
    · rw [List.set_eq_of_length_le (Nat.le_of_not_lt hlt)]
  · simp only [List.getD, List.get?_eq_getElem?]
    rw [List.getElem?_set_ne hne]

theorem hll_add_mono (g : String → ℕ) (st : HyperLogLog)
    (v : String) (j : ℕ) :
    st.buckets.getD j 0 ≤ (st.add g v).buckets.getD j 0 := by
  simp only [HyperLogLog.add]
  exact getD_set_max_le _ _ _ _

theorem hll_addAll_mono (g : String → ℕ) (st : HyperLogLog)
    (l : List String) (j : ℕ) :
    st.buckets.getD j 0 ≤ (st.addAll g l).buckets.getD j 0 := by
  induction l generalizing st with
  | nil => exact le_rfl
  | cons x xs ih =>
    exact le_trans (hll_add_mono g st x j) (ih (st.add g x))

/-- Applying the max-update at the same index twice equals applying it
once. -/
theorem set_max_getD_idem (l : List ℤ) (j : ℕ) (r : ℤ) :
    (l.set j (max (l.getD j 0) r)).set j
        (max ((l.set j (max (l.getD j 0) r)).getD j 0) r) =
      l.set j (max (l.getD j 0) r) := by
  rw [List.set_set]
  by_cases hlt : j < l.length
  · have hget : (l.set j (max (l.getD j 0) r)).getD j 0
        = max (l.getD j 0) r := by
      simp only [List.getD, List.get?_eq_getElem?]
      rw [List.getElem?_set_self hlt]
      rfl
    rw [hget, max_eq_left (le_max_right _ _)]
  · have hid : l.set j (max (l.getD j 0) r) = l :=
      List.set_eq_of_length_le (Nat.le_of_not_lt hlt)
    rw [hid]
    exact hid

theorem hll_add_idem (g : String → ℕ) (st : HyperLogLog)
    (v : String) : (st.add g v).add g v = st.add g v := by
  cases st with
  | mk b m buckets =>
    simp only [HyperLogLog.add]
    congr 1
    exact set_max_getD_idem _ _ _

end HllLemmas

/-! ## Lemmas about the hexdigest conversion -/

section HexLemmas

theorem hexDigitVal_lt (c : Char) (v : ℕ) (hv : hexDigitVal c = some v) :
    v < 16 := by
  unfold hexDigitVal at hv
  split_ifs at hv <;> (injection hv with hveq; omega)

theorem hexFold_bound (l : List Char) (a : ℕ)
    (hl : ∀ c ∈ l, (hexDigitVal c).isSome) :
    ∃ n, l.foldl hexFoldFn (some a) = some n ∧ n < (a + 1) * 16 ^ l.length := by
  induction l generalizing a with
  | nil => exact ⟨a, rfl, by simp⟩
  | cons c cs ih =>
    obtain ⟨v, hv⟩ :=
      Option.isSome_iff_exists.mp (hl c (List.mem_cons_self c cs))
    have hv16 : v < 16 := hexDigitVal_lt c v hv
    obtain ⟨n, hn, hbound⟩ :=
      ih (16 * a + v) (fun d hd => hl d (List.mem_cons_of_mem c hd))
    refine ⟨n, ?_, ?_⟩
    · rw [List.foldl_cons]
      have hstep : hexFoldFn (some a) c = some (16 * a + v) := by
        simp [hexFoldFn, hv]
      rw [hstep]
      exact hn
    · rw [List.length_cons]
      calc n < (16 * a + v + 1) * 16 ^ cs.length := hbound
        _ ≤ (16 * (a + 1)) * 16 ^ cs.length :=
            Nat.mul_le_mul_right _ (by omega)
        _ = (a + 1) * 16 ^ (cs.length + 1) := by ring

theorem int16_hex (s : String) (hne : s.data ≠ [])
    (hhex : ∀ c ∈ s.data, (hexDigitVal c).isSome) :
    ∃ n, int16 s = some n ∧ n < 16 ^ s.data.length := by
  obtain ⟨n, hn, hb⟩ := hexFold_bound s.data 0 hhex
  refine ⟨n, ?_, by simpa using hb⟩
  rw [int16, if_neg (by simpa [List.isEmpty_iff] using hne)]
  exact hn

end HexLemmas

/-! ## Lemmas about `check_password_uniqueness` -/

section PwLemmas

variable (h : String → ℕ → ℤ)

theorem run_append (bf : BloomFilter) (l₁ l₂ : List PwInput) :
    check_password_uniqueness h bf (l₁ ++ l₂) =
      l₂.foldl (pwStep h) (check_password_uniqueness h bf l₁) := by
  simp [check_password_uniqueness, List.foldl_append]

theorem run_snoc (bf : BloomFilter) (l : List PwInput) (p : PwInput) :
    check_password_uniqueness h bf (l ++ [p]) =
      pwStep h (check_password_uniqueness h bf l) p := by
  rw [run_append]
  rfl

theorem pwStep_filter_size (st : BloomFilter × List (PwInput × String))
    (p : PwInput) : (pwStep h st p).1.size = st.1.size := by
  cases p with
  | nonString => rfl
  | str s =>
    simp only [pwStep]
    split
    · rfl
    · split <;> rfl

theorem pwStep_filter_num (st : BloomFilter × List (PwInput × String))
    (p : PwInput) : (pwStep h st p).1.num_hashes = st.1.num_hashes := by
  cases p with
  | nonString => rfl
  | str s =>
    simp only [pwStep]
    split
    · rfl
    · split <;> rfl

theorem pwStep_filter_length (st : BloomFilter × List (PwInput × String))
    (p : PwInput) :
    (pwStep h st p).1.bit_array.length = st.1.bit_array.length := by
  cases p with
  | nonString => rfl
  | str s =>
    simp only [pwStep]
    split
    · rfl
    · split
      · rfl
      · exact BloomFilter.add_length h st.1 s

theorem pwStep_filter_mono (st : BloomFilter × List (PwInput × String))
    (p : PwInput) (n : ℕ)
    (hn : st.1.bit_array.getD n false = true) :
    (pwStep h st p).1.bit_array.getD n false = true := by
  cases p with
  | nonString => exact hn
  | str s =>
    simp only [pwStep]
    split
    · exact hn
    · split
      · exact hn
      · exact BloomFilter.add_mono h st.1 s n hn

theorem pwFold_filter_size (l : List PwInput)
    (st : BloomFilter × List (PwInput × String)) :
    (l.foldl (pwStep h) st).1.size = st.1.size := by
  induction l generalizing st with
  | nil => rfl
  | cons p ps ih =>
    rw [List.foldl_cons]
    exact (ih (pwStep h st p)).trans (pwStep_filter_size h st p)

theorem pwFold_filter_num (l : List PwInput)
    (st : BloomFilter × List (PwInput × String)) :
    (l.foldl (pwStep h) st).1.num_hashes = st.1.num_hashes := by
  induction l generalizing st with
  | nil => rfl
  | cons p ps ih =>
    rw [List.foldl_cons]
    exact (ih (pwStep h st p)).trans (pwStep_filter_num h st p)

theorem pwFold_filter_length (l : List PwInput)
    (st : BloomFilter × List (PwInput × String)) :
    (l.foldl (pwStep h) st).1.bit_array.length = st.1.bit_array.length := by
  induction l generalizing st with
  | nil => rfl
  | cons p ps ih =>
    rw [List.foldl_cons]
    exact (ih (pwStep h st p)).trans (pwStep_filter_length h st p)

theorem pwFold_filter_mono (l : List PwInput)
    (st : BloomFilter × List (PwInput × String)) (n : ℕ)
    (hn : st.1.bit_array.getD n false = true) :
    (l.foldl (pwStep h) st).1.bit_array.getD n false = true := by
  induction l generalizing st with
  | nil => exact hn
  | cons p ps ih =>
    rw [List.foldl_cons]
    exact ih (pwStep h st p) (pwStep_filter_mono h st p n hn)

/-- Once `s` has been added, any further processed inputs leave `check s`
true. -/
theorem pwFold_check_after_add (bfM : BloomFilter) (s : String)
    (mid : List PwInput) (tr : List (PwInput × String))
    (hsz : 0 < bfM.size) (hlen : bfM.bit_array.length = bfM.size) :
    (mid.foldl (pwStep h) (bfM.add h s, tr)).1.check h s = true := by
  set E := (mid.foldl (pwStep h) (bfM.add h s, tr)).1 with hE
  have hEsz : E.size = bfM.size := by
    rw [hE]
    exact (pwFold_filter_size h mid (bfM.add h s, tr)).trans
      (BloomFilter.add_size h bfM s)
  have hEnum : E.num_hashes = bfM.num_hashes := by
    rw [hE]
    exact (pwFold_filter_num h mid (bfM.add h s, tr)).trans
      (BloomFilter.add_num_hashes h bfM s)
  rw [BloomFilter.check, List.all_eq_true]
  intro hv hmem
  rw [BloomFilter.hashes_eq_of h bfM E s hEsz hEnum] at hmem
  have h2 : (bfM.add h s).bit_array.getD hv.toNat false = true :=
    BloomFilter.add_sets_probes h bfM s hsz hlen hv hmem
  rw [hE]
  exact pwFold_filter_mono h mid (bfM.add h s, tr) hv.toNat h2

end PwLemmas

/-! ## Claim theorems -/

section ClaimTheorems

/-- C1: no false negatives.  For every hash function, every filter built
with `size = m > 0` and `num_hashes = k > 0`, every string `s`, and every
sequence of other `add` calls before or after (`check` calls are pure and
cannot change the state), once `add(s)` has run, `check(s)` returns
`True`: the probe positions depend only on `(m, k)`, `add(s)` sets all of
them, and bits are never cleared. -/
theorem bloom_no_false_negatives (h : String → ℕ → ℤ) (m k : ℕ)
    (hm : 0 < m) (_hk : 0 < k) (pre post : List String) (s : String) :
    ((((BloomFilter.init m k).addAll h pre).add h s).addAll h post).check h s
      = true := by
  set bf1 := (BloomFilter.init m k).addAll h pre with hbf1
  have hsz1 : bf1.size = m := by
    rw [hbf1, BloomFilter.addAll_size]
    rfl
  have hlen1 : bf1.bit_array.length = bf1.size := by
    rw [hbf1, BloomFilter.addAll_length, BloomFilter.addAll_size]
    simp [BloomFilter.init]
  set bf2 := bf1.add h s with hbf2
  set bf3 := bf2.addAll h post with hbf3
  rw [BloomFilter.check, List.all_eq_true]
  intro hv hmem
  have hsame3 : bf3.hashes h s = bf1.hashes h s := by
    apply BloomFilter.hashes_eq_of
    · rw [hbf3, BloomFilter.addAll_size, hbf2, BloomFilter.add_size]
    · rw [hbf3, BloomFilter.addAll_num_hashes, hbf2, BloomFilter.add_num_hashes]
  rw [hsame3] at hmem
  have hszpos : 0 < bf1.size := by rw [hsz1]; exact hm
  have htrue2 : bf2.bit_array.getD hv.toNat false = true := by
    rw [hbf2]
    exact BloomFilter.add_sets_probes h bf1 s hszpos hlen1 hv hmem
  rw [hbf3]
  exact BloomFilter.addAll_mono h bf2 post hv.toNat htrue2

theorem bloom_no_false_negatives_witness :
    0 < 5 ∧ 0 < 2 ∧
    ((((BloomFilter.init 5 2).addAll hTest ["x", "password123"]).add hTest
        "abc").addAll hTest ["zz"]).check hTest "abc" = true :=
  ⟨by omega, by omega,
    bloom_no_false_negatives hTest 5 2 (by omega) (by omega)
      ["x", "password123"] ["zz"] "abc"⟩

/-- C2: the spec mandates `rank(w) = 1 + clz(w)` within the `W−b`-bit
field, with `rank(0) = W−b+1` (`= 119` for the md5 width `W = 128` and
`b = 10`).  The source's `_rho` computes
`(w.bit_length() - len(bin(w).lstrip('-0b'))) + 1`, which is `1` for every
`w ≥ 0`: for `w > 0` the stripped binary text has exactly `bit_length w`
digits (its leading digit is `1`, so `lstrip` removes nothing), and for
`w = 0` both terms are `0`.  The code therefore disagrees with the claim
at e.g. `w = 0` (code: `1`, claim: `119`) — and the spec's §9 explicitly
calls this behaviour a bug in the source, so the code, not the claim, is
wrong. -/
theorem rho_constant_one :
    (∀ w : ℕ, pyRho w = 1) ∧ pyRho 0 = 1 ∧ pyRho 0 ≠ 119 :=
  ⟨pyRho_eq_one, pyRho_eq_one 0, by rw [pyRho_eq_one 0]; omega⟩

/-- C3 (amended): `count()` on a freshly constructed estimator never
raises and never divides by zero — `Z = 2^b ≠ 0` — but it does not return
`0` (nor a documented sentinel): it returns the raw estimate
`0.7213 / (1 + 1.079/2^b) * 2^b ≈ 0.72 · m2`, which is non-zero, for
every bucket-bit count `b`. -/
theorem hll_zero_state_estimate (b : ℕ) :
    (HyperLogLog.init b).Z = (2 : ℚ) ^ b ∧
    (HyperLogLog.init b).Z ≠ 0 ∧
    (HyperLogLog.init b).count =
      0.7213 / (1 + 1.079 / (2 : ℚ) ^ b) * (2 : ℚ) ^ b ∧
    (HyperLogLog.init b).count ≠ 0 := by
  refine ⟨hll_Z_init b, ?_, hll_count_init b, ?_⟩
  · rw [hll_Z_init b]
    exact pow_ne_zero _ two_ne_zero
  · rw [hll_count_init b]
    have h1 : (0 : ℚ) < 0.7213 / (1 + 1.079 / (2 : ℚ) ^ b) * (2 : ℚ) ^ b := by
      positivity
    exact ne_of_gt h1

/-- C3 (counterexample): a freshly constructed estimator with `b = 10` has
all 1024 buckets at `0`, and `count()` returns a non-zero value (about
`738.2`), not `0` and not any sentinel. -/
theorem hll_zero_state_counterexample :
    (HyperLogLog.init 10).buckets = List.replicate 1024 0 ∧
    (HyperLogLog.init 10).count ≠ 0 := by
  refine ⟨rfl, ?_⟩
  rw [hll_count_init 10]
  norm_num

/-- C4 (counterexample): the all-zero state of a `b = 4` estimator has
`V = 16 ≠ 0` zero buckets and raw estimate `E ≈ 10.81 ≤ 2.5 · 16`, so the
claim requires `count()` to return `m2 · ln(m2/V) = 16 · ln 1 = 0`; the
code has no linear-counting branch and returns `E ≠ 0`. -/
theorem hll_small_range_counterexample :
    (HyperLogLog.init 4).numZeroBuckets ≠ 0 ∧
    (HyperLogLog.init 4).count ≤ 2.5 * ((HyperLogLog.init 4).m : ℚ) ∧
    ((HyperLogLog.init 4).count : ℝ) ≠ specLinearCounting (HyperLogLog.init 4) := by
  refine ⟨by rw [numZero_init4]; omega, ?_, ?_⟩
  · rw [hll_count_init 4, hll_m_init 4]
    norm_num
  · rw [specLC_init4]
    have h1 : (HyperLogLog.init 4).count ≠ 0 := by
      rw [hll_count_init 4]
      norm_num
    exact_mod_cast h1

/-- C4 (amended): `count()` applies no small-range correction.  At the
all-zero `b = 4` state — where `V = 16 ≠ 0` and the spec's linear-counting
rule yields `16 · ln(16/16) = 0` — the code returns the raw harmonic-mean
estimate, which lies strictly between `10` and `11` (it is
`923264/85395 ≈ 10.81`), not the linear-counting value.  (The `±2`-of-5
accuracy the spec promises for 5 distinct adds relies on the missing
branch.) -/
theorem hll_no_small_range_correction :
    (HyperLogLog.init 4).numZeroBuckets = 16 ∧
    specLinearCounting (HyperLogLog.init 4) = 0 ∧
    10 < (HyperLogLog.init 4).count ∧ (HyperLogLog.init 4).count < 11 := by
  refine ⟨numZero_init4, specLC_init4, ?_, ?_⟩ <;>
  · rw [hll_count_init 4]
    norm_num

/-- C5 (counterexample): `BloomFilter(size=0, num_hashes=3)` and
`HyperLogLog(0)` both construct successfully — the state is created (an
empty bit array, resp. `m = 1` with one bucket) and no
`ConfigurationError` (nor any exception) is raised, because neither
`__init__` contains any validation. -/
theorem construction_counterexample :
    (BloomFilter.init 0 3).size = 0 ∧
    (BloomFilter.init 0 3).num_hashes = 3 ∧
    (BloomFilter.init 0 3).bit_array = [] ∧
    (HyperLogLog.init 0).m = 1 ∧
    (HyperLogLog.init 0).buckets = [0] :=
  ⟨rfl, rfl, rfl, rfl, rfl⟩

/-- C5 (amended): neither constructor validates its parameters; for every
`size`, `num_hashes` and `b` (including `0`) construction succeeds and
creates the documented state: an all-zero bit array of length `size`,
resp. `2^b` buckets all at `0`.  (With `size = 0` the failure is only
deferred: a later `add`/`check` would raise `ZeroDivisionError` at
`% self.size`.) -/
theorem construction_no_validation (m k b : ℕ) :
    (BloomFilter.init m k).size = m ∧
    (BloomFilter.init m k).num_hashes = k ∧
    (BloomFilter.init m k).bit_array.length = m ∧
    (∀ x ∈ (BloomFilter.init m k).bit_array, x = false) ∧
    (HyperLogLog.init b).m = 2 ^ b ∧
    (HyperLogLog.init b).buckets.length = 2 ^ b ∧
    (∀ r ∈ (HyperLogLog.init b).buckets, r = 0) := by
  refine ⟨rfl, rfl, by simp [BloomFilter.init], ?_, hll_m_init b, ?_, ?_⟩
  · intro x hx
    exact List.eq_of_mem_replicate hx
  · simp [HyperLogLog.init, Nat.shiftLeft_eq]
  · intro r hr
    exact List.eq_of_mem_replicate hr

/-- C6: the hash family is deterministic (the embedding is a pure
function, so `(value, i)` fixes the result), accepts every string
including the empty one, and never produces a negative value: every probe
`mmh3.hash(item, i) % size` is `≥ 0` when `size > 0` even though `mmh3`
itself is signed, and `_hash` parses the 32-character md5 hexdigest into
`some n` with `0 ≤ n < 16^32`, never failing. -/
theorem hash_family_deterministic_nonneg (h : String → ℕ → ℤ)
    (digest : String → String) (bf : BloomFilter) (item value : String)
    (hsz : 0 < bf.size) (hlen32 : (digest value).data.length = 32)
    (hhex : ∀ c ∈ (digest value).data, (hexDigitVal c).isSome) :
    (∀ p ∈ bf.hashes h item, 0 ≤ p) ∧
    (∃ n : ℕ, hll_hash digest value = some n ∧ n < 16 ^ 32) := by
  constructor
  · intro p hp
    exact (BloomFilter.hashes_bounds h bf item hsz p hp).1
  · have hne : (digest value).data ≠ [] := by
      intro hcontra
      rw [hcontra] at hlen32
      simp at hlen32
    obtain ⟨n, hn, hb⟩ := int16_hex (digest value) hne hhex
    refine ⟨n, hn, ?_⟩
    rwa [hlen32] at hb

theorem hash_family_deterministic_nonneg_witness :
    0 < (BloomFilter.init 3 2).size ∧
    (∀ p ∈ (BloomFilter.init 3 2).hashes hTest "", 0 ≤ p) ∧
    (∃ n : ℕ,
      hll_hash (fun _ => "d41d8cd98f00b204e9800998ecf8427e") "" = some n ∧
      n < 16 ^ 32) :=
  ⟨by decide,
   (hash_family_deterministic_nonneg hTest
      (fun _ => "d41d8cd98f00b204e9800998ecf8427e")
      (BloomFilter.init 3 2) "" "" (by decide) (by decide) (by decide)).1,
   (hash_family_deterministic_nonneg hTest
      (fun _ => "d41d8cd98f00b204e9800998ecf8427e")
      (BloomFilter.init 3 2) "" "" (by decide) (by decide) (by decide)).2⟩

/-- C7: monotone state.  Across any sequence of `add` calls a set bit of
the Bloom filter's bit array stays set (bits are only ever written `1`),
and every HyperLogLog bucket is non-decreasing (each update writes
`max(old, rho)`). -/
theorem monotone_state (h : String → ℕ → ℤ) (g : String → ℕ)
    (bf : BloomFilter) (l : List String) (n : ℕ)
    (st : HyperLogLog) (ls : List String) (j : ℕ)
    (hn : bf.bit_array.getD n false = true) :
    (bf.addAll h l).bit_array.getD n false = true ∧
    st.buckets.getD j 0 ≤ (st.addAll g ls).buckets.getD j 0 :=
  ⟨BloomFilter.addAll_mono h bf l n hn, hll_addAll_mono g st ls j⟩

theorem monotone_state_witness :
    (BloomFilter.mk 3 2 [true, false, false]).bit_array.getD 0 false = true ∧
    ((BloomFilter.mk 3 2 [true, false, false]).addAll hTest
        ["q"]).bit_array.getD 0 false = true ∧
    (HyperLogLog.init 2).buckets.getD 1 0 ≤
      ((HyperLogLog.init 2).addAll gTest ["ip1", "ip2"]).buckets.getD 1 0 :=
  ⟨by decide,
   (monotone_state hTest gTest (BloomFilter.mk 3 2 [true, false, false])
      ["q"] 0 (HyperLogLog.init 2) ["ip1", "ip2"] 1 (by decide)).1,
   (monotone_state hTest gTest (BloomFilter.mk 3 2 [true, false, false])
      ["q"] 0 (HyperLogLog.init 2) ["ip1", "ip2"] 1 (by decide)).2⟩

/-- C8: idempotence of `add`.  For every hash function and every prior
state of either structure, `add(s); add(s)` leaves the bit array, resp.
the bucket array, exactly as a single `add(s)`: re-setting already-set
bits and re-taking `max` with the same rank are no-ops. -/
theorem add_idempotent (h : String → ℕ → ℤ) (g : String → ℕ)
    (bf : BloomFilter) (s : String) (st : HyperLogLog) (v : String) :
    (bf.add h s).add h s = bf.add h s ∧
    (st.add g v).add g v = st.add g v :=
  ⟨BloomFilter.add_idem h bf s, hll_add_idem g st v⟩

/-- C9: with `size > 0`, every probe index `mmh3.hash(item, i) % size`
lies in `[0, size)` — Python's `%` with a positive modulus is
non-negative even on negative hashes — so `add` and `check` only touch
in-bounds positions of the length-`size` bit array (whose length `add`
preserves), and no `IndexError` can occur. -/
theorem probe_indices_in_bounds (h : String → ℕ → ℤ) (bf : BloomFilter)
    (item : String) (hsz : 0 < bf.size)
    (hlen : bf.bit_array.length = bf.size) :
    (∀ p ∈ bf.hashes h item, 0 ≤ p ∧ p.toNat < bf.bit_array.length) ∧
    (bf.add h item).bit_array.length = bf.size := by
  constructor
  · intro p hp
    obtain ⟨h0, hlt⟩ := BloomFilter.hashes_bounds h bf item hsz p hp
    refine ⟨h0, ?_⟩
    rw [hlen]
    omega
  · rw [BloomFilter.add_length, hlen]

theorem probe_indices_in_bounds_witness :
    0 < (BloomFilter.init 4 3).size ∧
    (BloomFilter.init 4 3).bit_array.length = (BloomFilter.init 4 3).size ∧
    (∀ p ∈ (BloomFilter.init 4 3).hashes hTest "pw",
      0 ≤ p ∧ p.toNat < (BloomFilter.init 4 3).bit_array.length) ∧
    ((BloomFilter.init 4 3).add hTest "pw").bit_array.length
      = (BloomFilter.init 4 3).size :=
  ⟨by decide, by decide,
   (probe_indices_in_bounds hTest (BloomFilter.init 4 3) "pw"
      (by decide) (by decide)).1,
   (probe_indices_in_bounds hTest (BloomFilter.init 4 3) "pw"
      (by decide) (by decide)).2⟩

/-- C10 (counterexample): with `size = 1` every string probes bit 0
(anything `% 1` is `0`, for any hash function), so after `"a"` is added
the very first occurrence of `"b"` is a false positive and is reported
`"вже використаний"`, not `"унікальний"` — refuting the claim's clause
that a valid string occurring twice is reported unique on its first
occurrence. -/
theorem cpu_first_occurrence_counterexample :
    (check_password_uniqueness hTest (BloomFilter.init 1 1)
        [PwInput.str "a", PwInput.str "b", PwInput.str "b"]).2 =
      [(PwInput.str "a", "унікальний"),
       (PwInput.str "b", "вже використаний"),
       (PwInput.str "b", "вже використаний")] := by
  decide

/-- C10 (amended): `check_password_uniqueness` maps every invalid element
(non-string or empty string) to `"Некоректний пароль"` leaving the filter
untouched, and every valid string `s` to `"вже використаний"` when
`check(s)` is true at that point and otherwise to `"унікальний"` with
`add(s)` called exactly once.  Consequently, when the first occurrence of
a duplicate valid string was reported unique, the later occurrence is
reported already-used; the first occurrence itself may be a false
positive and be reported already-used (see the counterexample), which is
the only part of the original claim that fails.  The trace lists the
`results[password] = status` assignments in order; the Python dict is its
last-write-wins view. -/
theorem check_password_uniqueness_semantics (h : String → ℕ → ℤ)
    (bf : BloomFilter) (pre mid : List PwInput) (s : String)
    (hs : s.isEmpty = false) (hsz : 0 < bf.size)
    (hlen : bf.bit_array.length = bf.size) :
    (∀ p : PwInput, isValidPassword p = false →
        check_password_uniqueness h bf (pre ++ [p]) =
          ((check_password_uniqueness h bf pre).1,
           (check_password_uniqueness h bf pre).2
             ++ [(p, "Некоректний пароль")])) ∧
    (check_password_uniqueness h bf (pre ++ [PwInput.str s]) =
      if (check_password_uniqueness h bf pre).1.check h s then
        ((check_password_uniqueness h bf pre).1,
         (check_password_uniqueness h bf pre).2
           ++ [(PwInput.str s, "вже використаний")])
      else
        ((check_password_uniqueness h bf pre).1.add h s,
         (check_password_uniqueness h bf pre).2
           ++ [(PwInput.str s, "унікальний")])) ∧
    ((check_password_uniqueness h bf pre).1.check h s = false →
      (check_password_uniqueness h bf
          (pre ++ PwInput.str s :: mid ++ [PwInput.str s])).2 =
        (check_password_uniqueness h bf (pre ++ PwInput.str s :: mid)).2
          ++ [(PwInput.str s, "вже використаний")]) := by
  refine ⟨?_, ?_, ?_⟩
  · intro p hp
    rw [run_snoc]
    cases p with
    | nonString => rfl
    | str t =>
      have ht : t.isEmpty = true := by
        simpa [isValidPassword] using hp
      simp [pwStep, ht]
  · rw [run_snoc]
    simp only [pwStep, hs, Bool.false_eq_true, if_false]
  · intro hcheck
    have hsplit1 : pre ++ PwInput.str s :: mid ++ [PwInput.str s]
        = (pre ++ PwInput.str s :: mid) ++ [PwInput.str s] := by simp
    have hsplit2 : pre ++ PwInput.str s :: mid
        = (pre ++ [PwInput.str s]) ++ mid := by simp
    have hmid : check_password_uniqueness h bf (pre ++ PwInput.str s :: mid)
        = mid.foldl (pwStep h)
            ((check_password_uniqueness h bf pre).1.add h s,
             (check_password_uniqueness h bf pre).2
               ++ [(PwInput.str s, "унікальний")]) := by
      rw [hsplit2, run_append, run_snoc]
      simp [pwStep, hs, hcheck]
    have hMsz : (check_password_uniqueness h bf pre).1.size = bf.size :=
      pwFold_filter_size h pre (bf, [])
    have hMlen : (check_password_uniqueness h bf pre).1.bit_array.length
        = (check_password_uniqueness h bf pre).1.size := by
      rw [hMsz]
      exact (pwFold_filter_length h pre (bf, [])).trans hlen
    have hchk : (check_password_uniqueness h bf
        (pre ++ PwInput.str s :: mid)).1.check h s = true := by
      rw [hmid]
      exact pwFold_check_after_add h _ s mid _ (by rw [hMsz]; exact hsz) hMlen
    rw [hsplit1, run_snoc]
    simp [pwStep, hs, hchk]

theorem check_password_uniqueness_semantics_witness :
    ("b" : String).isEmpty = false ∧
    0 < (BloomFilter.init 5 2).size ∧
    (BloomFilter.init 5 2).bit_array.length = (BloomFilter.init 5 2).size ∧
    (check_password_uniqueness hTest (BloomFilter.init 5 2)
        ([PwInput.nonString] ++ PwInput.str "b" :: [PwInput.str "x"]
          ++ [PwInput.str "b"])).2 =
      (check_password_uniqueness hTest (BloomFilter.init 5 2)
        ([PwInput.nonString] ++ PwInput.str "b" :: [PwInput.str "x"])).2
        ++ [(PwInput.str "b", "вже використаний")] :=
  ⟨rfl, by decide, by decide,
   (check_password_uniqueness_semantics hTest (BloomFilter.init 5 2)
      [PwInput.nonString] [PwInput.str "x"] "b" rfl (by decide)
      (by decide)).2.2 (by decide)⟩

end ClaimTheorems

end BloomSpec
